import Mathlib

/-
Verification of the GamTools segmentation module (segmentation.py).

The module computes co-segregation statistics from a GAM segmentation
table: a matrix of indicator rows (one per genomic window) over sample
columns.  We embed the functions cosegregation_frequency,
fast_cosegregation_frequency, get_index_combinations,
get_cosegregation_freqs, map_freqs and index_from_interval as Lean
definitions and prove the documented properties about them.

Conventions: indicator values are natural numbers (the table holds 0/1
integers); numpy integer arithmetic is signed, so tensors produced by the
fast path carry Int entries; contingency tensors of shape (2,)*K are
flattened row-major (C order), so the cell addressed by bits (b1,...,bK)
lives at flat index b1*2^(K-1) + ... + bK.
-/

namespace GamTools

/-- Number of sample columns of a table of indicator rows: numpy
shape[1], equal to the length of the first row since numpy tables are
rectangular (also literally len(samples[0]) as used by the fast path). -/
def numSamples (rows : List (List Nat)) : Nat := (rows.headD []).length

/-- Row-major flat index of the tensor cell addressed by a bit pattern,
as numpy lays out an array of shape (2,)*K in C order. -/
def bitsToIdx : List Nat → Nat
  | [] => 0
  | b :: bs => b * 2 ^ bs.length + bitsToIdx bs

/-- counts[i] += 1.  Out-of-range i leaves the list unchanged; the 0/1
value hypotheses used below rule that case out, matching numpy indexing
which requires the index to be in range. -/
def incr (counts : List Nat) (i : Nat) : List Nat :=
  counts.set i (counts.getD i 0 + 1)

/-- The counting loop of cosegregation_frequency: for each sample column
s of the table, increment the tensor cell addressed by s. -/
def cosegLoop (cols : List (List Nat)) (counts : List Nat) : List Nat :=
  cols.foldl (fun acc s => incr acc (bitsToIdx s)) counts

/-- samples.T: the list of the n sample columns of a table of rows. -/
def colsOf (rows : List (List Nat)) (n : Nat) : List (List Nat) :=
  (List.range n).map (fun i => rows.map (fun r => r.getD i 0))

/-- The general per-sample counting algorithm of cosegregation_frequency:
start from a zero tensor of shape (2,)*K and add one per sample column at
the cell given by that column. -/
def general_cosegregation_frequency (rows : List (List Nat)) : List Nat :=
  cosegLoop (colsOf rows (numSamples rows)) (List.replicate (2 ^ rows.length) 0)

/-- fast_cosegregation_frequency: the K = 2 inclusion-exclusion formula.
coseg is the sum of the elementwise product of the two rows, marga and
margb are the row sums, and the 2x2 tensor, flattened row-major, is
[[N - marga - margb + coseg, margb - coseg], [marga - coseg, coseg]]
with N = len(samples[0]). -/
def fast_cosegregation_frequency (rows : List (List Nat)) : List Int :=
  let a := rows.getD 0 []
  let b := rows.getD 1 []
  let coseg : Int := ((List.zipWith (fun x y => x * y) a b).sum : Nat)
  let marga : Int := (a.sum : Nat)
  let margb : Int := (b.sum : Nat)
  [(a.length : Int) - marga - margb + coseg, margb - coseg, marga - coseg, coseg]

/-- cosegregation_frequency: dispatches to the fast path when the table
has exactly two rows, otherwise runs the general counting loop. -/
def cosegregation_frequency (rows : List (List Nat)) : List Int :=
  if rows.length = 2 then fast_cosegregation_frequency rows
  else (general_cosegregation_frequency rows).map (fun c => Int.ofNat c)

/-- Number of sample columns with detection pattern (x, y) across the
row pair (a, b). -/
def cnt (x y : Nat) (a b : List Nat) : Nat :=
  (a.zip b).countP (fun p => p.1 == x && p.2 == y)

/-- Errors of the combination enumerator: assertionError models the
failed assert len(regions) > 1, valueError models the ValueError raised
by max() over an empty range when a region has length zero. -/
inductive CombError where
  | assertionError
  | valueError

/-- The loop of get_index_combinations: one step per region appends
range(start, start + len(region)) to the index ranges and then sets
start to max(that range) + 1; max of an empty range fails. -/
def buildIndexes (regions : List (List (List Nat))) (start : Nat) :
    Except CombError (List (List Nat)) :=
  match regions with
  | [] => .ok []
  | r :: rest =>
    match (List.range' start r.length).max? with
    | none => .error .valueError
    | some m =>
      (buildIndexes rest (m + 1)).map (fun ls => List.range' start r.length :: ls)

/-- itertools.product: the Cartesian product of a list of index ranges in
lexicographic order, the first range varying slowest. -/
def listProd : List (List Nat) → List (List Nat)
  | [] => [[]]
  | xs :: rest => xs.flatMap (fun x => (listProd rest).map (fun c => x :: c))

/-- get_index_combinations: assert that there are at least two regions,
build the offset index ranges, and return their Cartesian product. -/
def get_index_combinations (regions : List (List (List Nat))) :
    Except CombError (List (List Nat)) :=
  if regions.length > 1 then (buildIndexes regions 0).map listProd
  else .error .assertionError

/-- The index ranges as the specification states them: region j receives
the half-open local range of its length shifted by the cumulative length
of all preceding regions. -/
def specRanges (start : Nat) : List (List (List Nat)) → List (List Nat)
  | [] => []
  | r :: rest => List.range' start r.length :: specRanges (start + r.length) rest

/-- A frequency tensor: the shape recorded by get_cosegregation_freqs
(region lengths followed by K binary axes) together with the flat list of
per-combination contingency tensors in enumeration order. -/
structure FreqTensor where
  shape : List Nat
  tensors : List (List Int)

/-- get_cosegregation_freqs: duplicate a single region, enumerate the
index combinations, concatenate the regions into one table, and compute
one contingency tensor per combination of rows; the recorded shape is
(len region 1, ..., len region K, 2, ..., 2). -/
def get_cosegregation_freqs (regionsIn : List (List (List Nat))) :
    Except CombError FreqTensor :=
  match get_index_combinations
      (if regionsIn.length = 1 then regionsIn ++ regionsIn else regionsIn) with
  | .error e => .error e
  | .ok combos =>
    .ok { shape :=
            (if regionsIn.length = 1 then regionsIn ++ regionsIn else regionsIn).map
              List.length ++
            List.replicate
              (if regionsIn.length = 1 then regionsIn ++ regionsIn else regionsIn).length 2,
          tensors := combos.map (fun ix =>
            cosegregation_frequency (ix.map (fun i =>
              ((if regionsIn.length = 1 then regionsIn ++ regionsIn
                else regionsIn).flatten).getD i []))) }

/-- map_freqs: reduce every contingency tensor of a frequency tensor with
the supplied function; the result keeps the first half of the shape (the
region-length axes) and holds one scalar per combination. -/
def map_freqs (func : List Int → Int) (fqs : FreqTensor) : List Nat × List Int :=
  (fqs.shape.take (fqs.shape.length / 2), fqs.tensors.map func)

/-- A genomic window: one row key of the segmentation table. -/
structure Window where
  chrom : String
  start : Int
  stop : Int

/-- The per-row overlap mask of index_from_interval: window stop > query
start AND window start < query stop AND window chrom equals query chrom. -/
def window_in_region (w : Window) (chrom : String) (start stop : Int) : Bool :=
  (w.stop > start) && (w.start < stop) && (w.chrom == chrom)

/-- Whether row i of the window list overlaps the query (false when i is
out of range). -/
def overlapsAt (windows : List Window) (chrom : String) (start stop : Int)
    (i : Nat) : Bool :=
  match windows[i]? with
  | some w => window_in_region w chrom start stop
  | none => false

/-- np.nonzero of the overlap mask: the increasing list of row indices
whose window overlaps the query. -/
def coveredWindows (windows : List Window) (chrom : String) (start stop : Int) :
    List Nat :=
  (List.range windows.length).filter (overlapsAt windows chrom start stop)

/-- Failure modes of index_from_interval.  invalidInterval and
invalidChrom model the two exceptions raised explicitly by the code;
indexError models the Python IndexError raised by reading
covered_windows[0] when the overlap list is empty but the chromosome is
present in the index. -/
inductive SegError where
  | invalidInterval (start stop : Int)
  | invalidChrom (chrom : String)
  | indexError

/-- index_from_interval: validate start < stop, build the overlap mask
over all rows and take its nonzero indices; when there are none and the
chromosome is absent from the window index raise InvalidChromError;
otherwise read the first and last covered indices (an IndexError when
the overlap list is empty) and return the half-open index range. -/
def index_from_interval (windows : List Window) :
    String × Int × Int → Except SegError (Nat × Nat)
  | (chrom, start, stop) =>
    if ¬ start < stop then .error (.invalidInterval start stop)
    else if (coveredWindows windows chrom start stop).isEmpty &&
        !(windows.any (fun w => w.chrom == chrom)) then
      .error (.invalidChrom chrom)
    else if (coveredWindows windows chrom start stop).isEmpty then
      .error .indexError
    else
      .ok ((coveredWindows windows chrom start stop).headD 0,
        (coveredWindows windows chrom start stop).getLastD 0 + 1)

/-- A concrete pair of regions of lengths 3 and 4 (rows of width 1), the
shape example of the specification. -/
def exRegions34 : List (List (List Nat)) :=
  [[[1], [0], [1]], [[1], [0], [1], [0]]]

theorem incr_length (counts : List Nat) (i : Nat) :
    (incr counts i).length = counts.length := by
  simp [incr]

theorem cosegLoop_length (cols : List (List Nat)) (counts : List Nat) :
    (cosegLoop cols counts).length = counts.length := by
  induction cols generalizing counts with
  | nil => rfl
  | cons s rest ih =>
    have h : cosegLoop (s :: rest) counts = cosegLoop rest (incr counts (bitsToIdx s)) := rfl
    rw [h, ih, incr_length]

theorem incr_sum (counts : List Nat) (i : Nat) (h : i < counts.length) :
    (incr counts i).sum = counts.sum + 1 := by
  induction counts generalizing i with
  | nil => simp at h
  | cons a t ih =>
    cases i with
    | zero =>
      simp [incr, List.set]
      omega
    | succ j =>
      have hj : j < t.length := by simpa using h
      have step : incr (a :: t) (j + 1) = a :: incr t j := rfl
      rw [step]
      simp [ih j hj]
      omega

theorem cosegLoop_sum (cols : List (List Nat)) (counts : List Nat)
    (h : ∀ s ∈ cols, bitsToIdx s < counts.length) :
    (cosegLoop cols counts).sum = counts.sum + cols.length := by
  induction cols generalizing counts with
  | nil => simp [cosegLoop]
  | cons s rest ih =>
    have hs : bitsToIdx s < counts.length := h s (by simp)
    have hr : ∀ t ∈ rest, bitsToIdx t < (incr counts (bitsToIdx s)).length := by
      intro t ht
      rw [incr_length]
      exact h t (by simp [ht])
    have step : cosegLoop (s :: rest) counts = cosegLoop rest (incr counts (bitsToIdx s)) := rfl
    rw [step, ih _ hr, incr_sum _ _ hs]
    simp
    omega

theorem getD_incr_self (counts : List Nat) (i : Nat) (h : i < counts.length) :
    (incr counts i).getD i 0 = counts.getD i 0 + 1 := by
  have hlen : i < (incr counts i).length := by rw [incr_length]; exact h
  rw [List.getD_eq_getElem _ _ hlen]
  simp [incr]

theorem getD_incr_ne (counts : List Nat) (i j : Nat) (hne : i ≠ j) :
    (incr counts i).getD j 0 = counts.getD j 0 := by
  rw [List.getD_eq_getElem?_getD, List.getD_eq_getElem?_getD, incr,
    List.getElem?_set_ne hne]

theorem cosegLoop_getD (cols : List (List Nat)) (counts : List Nat) (j : Nat)
    (hj : j < counts.length) :
    (cosegLoop cols counts).getD j 0 =
      counts.getD j 0 + cols.countP (fun s => bitsToIdx s == j) := by
  induction cols generalizing counts with
  | nil => simp [cosegLoop]
  | cons s rest ih =>
    have hlen : j < (incr counts (bitsToIdx s)).length := by rw [incr_length]; exact hj
    have step : cosegLoop (s :: rest) counts = cosegLoop rest (incr counts (bitsToIdx s)) := rfl
    rw [step, ih _ hlen, List.countP_cons]
    by_cases hb : bitsToIdx s = j
    · rw [hb, getD_incr_self _ _ hj]
      simp [hb]
      omega
    · rw [getD_incr_ne _ _ _ hb]
      simp [hb]

theorem bitsToIdx_lt (s : List Nat) (h : ∀ x ∈ s, x ≤ 1) :
    bitsToIdx s < 2 ^ s.length := by
  induction s with
  | nil => simp [bitsToIdx]
  | cons b t ih =>
    have hb : b ≤ 1 := h b (by simp)
    have ht : bitsToIdx t < 2 ^ t.length := ih (fun x hx => h x (by simp [hx]))
    have hmul : b * 2 ^ t.length ≤ 2 ^ t.length := by
      calc b * 2 ^ t.length ≤ 1 * 2 ^ t.length := Nat.mul_le_mul_right _ hb
        _ = 2 ^ t.length := by ring
    have hpow : 2 ^ (t.length + 1) = 2 ^ t.length + 2 ^ t.length := by ring
    simp only [bitsToIdx, List.length_cons]
    omega

theorem general_length (rows : List (List Nat)) :
    (general_cosegregation_frequency rows).length = 2 ^ rows.length := by
  simp [general_cosegregation_frequency, cosegLoop_length]

theorem getD_le_one (r : List Nat) (i : Nat) (h : ∀ x ∈ r, x ≤ 1) :
    r.getD i 0 ≤ 1 := by
  rw [List.getD_eq_getElem?_getD]
  cases hg : r[i]? with
  | none => simp
  | some v =>
    have hv : v ∈ r := List.getElem?_mem hg
    simpa using h v hv

theorem general_sum (rows : List (List Nat))
    (h01 : ∀ r ∈ rows, ∀ x ∈ r, x ≤ 1) :
    (general_cosegregation_frequency rows).sum = numSamples rows := by
  have hcols : ∀ s ∈ colsOf rows (numSamples rows),
      bitsToIdx s < (List.replicate (2 ^ rows.length) (0 : Nat)).length := by
    intro s hs
    rw [List.length_replicate]
    simp only [colsOf, List.mem_map, List.mem_range] at hs
    obtain ⟨i, _, rfl⟩ := hs
    have hlen : (rows.map (fun r => r.getD i 0)).length = rows.length := by simp
    have hle : ∀ x ∈ rows.map (fun r => r.getD i 0), x ≤ 1 := by
      intro x hx
      simp only [List.mem_map] at hx
      obtain ⟨r, hr, rfl⟩ := hx
      exact getD_le_one r i (h01 r hr)
    have := bitsToIdx_lt _ hle
    rwa [hlen] at this
  rw [general_cosegregation_frequency, cosegLoop_sum _ _ hcols]
  simp [colsOf]

theorem colsOf_pair (a b : List Nat) (hb : b.length = a.length) :
    colsOf [a, b] a.length = (a.zip b).map (fun p => [p.1, p.2]) := by
  apply List.ext_getElem
  · simp [colsOf, hb]
  · intro i h1 h2
    have hia : i < a.length := by simpa [colsOf] using h1
    have hib : i < b.length := by omega
    simp [colsOf, List.getElem?_eq_getElem hia, List.getElem?_eq_getElem hib]

theorem pair_counts : ∀ (a b : List Nat), b.length = a.length →
    (∀ x ∈ a, x ≤ 1) → (∀ x ∈ b, x ≤ 1) →
    (List.zipWith (fun x y => x * y) a b).sum = cnt 1 1 a b ∧
    a.sum = cnt 1 0 a b + cnt 1 1 a b ∧
    b.sum = cnt 0 1 a b + cnt 1 1 a b ∧
    a.length = cnt 0 0 a b + cnt 0 1 a b + cnt 1 0 a b + cnt 1 1 a b
  | [], [], _, _, _ => by simp [cnt]
  | [], _ :: _, hb, _, _ => by simp at hb
  | _ :: _, [], hb, _, _ => by simp at hb
  | x :: a2, y :: b2, hb, ha1, hb1 => by
    have hb2 : b2.length = a2.length := by simpa using hb
    have ha2 : ∀ v ∈ a2, v ≤ 1 := fun v hv => ha1 v (by simp [hv])
    have hb2' : ∀ v ∈ b2, v ≤ 1 := fun v hv => hb1 v (by simp [hv])
    obtain ⟨h1, h2, h3, h4⟩ := pair_counts a2 b2 hb2 ha2 hb2'
    have hx : x = 0 ∨ x = 1 := by have := ha1 x (by simp); omega
    have hy : y = 0 ∨ y = 1 := by have := hb1 y (by simp); omega
    simp only [cnt, List.zip_cons_cons, List.countP_cons, List.zipWith_cons_cons,
      List.sum_cons, List.length_cons] at *
    rcases hx with rfl | rfl <;> rcases hy with rfl | rfl <;> simp <;> omega

theorem bitsToIdx_pair (x y : Nat) : bitsToIdx [x, y] = 2 * x + y := by
  simp [bitsToIdx]
  ring

theorem general_pair (a b : List Nat) (hb : b.length = a.length)
    (ha1 : ∀ x ∈ a, x ≤ 1) (hb1 : ∀ x ∈ b, x ≤ 1) :
    general_cosegregation_frequency [a, b] =
      [cnt 0 0 a b, cnt 0 1 a b, cnt 1 0 a b, cnt 1 1 a b] := by
  have hn : numSamples [a, b] = a.length := rfl
  have hmem : ∀ p ∈ a.zip b, p.1 ≤ 1 ∧ p.2 ≤ 1 := by
    intro p hp
    have h1 : p.1 ∈ a := (List.of_mem_zip hp).1
    have h2 : p.2 ∈ b := (List.of_mem_zip hp).2
    exact ⟨ha1 _ h1, hb1 _ h2⟩
  have hcell : ∀ j : Nat, j < 4 →
      (general_cosegregation_frequency [a, b]).getD j 0 =
        (a.zip b).countP (fun p => bitsToIdx [p.1, p.2] == j) := by
    intro j hj
    have hrep : j < (List.replicate (2 ^ ([a, b] : List (List Nat)).length) (0 : Nat)).length := by
      simp
      omega
    have hz : (List.replicate (2 ^ ([a, b] : List (List Nat)).length) (0 : Nat)).getD j 0 = 0 := by
      rw [List.getD_eq_getElem _ _ hrep, List.getElem_replicate]
    rw [general_cosegregation_frequency, cosegLoop_getD _ _ _ hrep, hn,
      colsOf_pair a b hb, List.countP_map, hz]
    simp only [Nat.zero_add]
    rfl
  have hlen : (general_cosegregation_frequency [a, b]).length = 4 :=
    general_length [a, b]
  have count_congr : ∀ (j x y : Nat), j = 2 * x + y → x ≤ 1 → y ≤ 1 →
      (a.zip b).countP (fun p => bitsToIdx [p.1, p.2] == j) = cnt x y a b := by
    intro j x y hj hx hy
    rw [cnt]
    apply List.countP_congr
    intro p hp
    have hple := hmem p hp
    rw [bitsToIdx_pair]
    constructor
    · intro h
      simp at h ⊢
      omega
    · intro h
      simp at h ⊢
      omega
  apply List.ext_getElem
  · rw [hlen]
    rfl
  · intro j hj1 hj2
    rw [hlen] at hj1
    have hgd : (general_cosegregation_frequency [a, b])[j] =
        (general_cosegregation_frequency [a, b]).getD j 0 := by
      rw [List.getD_eq_getElem]
    rw [hgd, hcell j hj1]
    interval_cases j
    · rw [count_congr 0 0 0 (by ring) (by omega) (by omega)]
      rfl
    · rw [count_congr 1 0 1 (by ring) (by omega) (by omega)]
      rfl
    · rw [count_congr 2 1 0 (by ring) (by omega) (by omega)]
      rfl
    · rw [count_congr 3 1 1 (by ring) (by omega) (by omega)]
      rfl

theorem fast_eq_general_pair (a b : List Nat) (hb : b.length = a.length)
    (ha1 : ∀ x ∈ a, x ≤ 1) (hb1 : ∀ x ∈ b, x ≤ 1) :
    fast_cosegregation_frequency [a, b] =
      (general_cosegregation_frequency [a, b]).map (fun c => Int.ofNat c) := by
  rw [general_pair a b hb ha1 hb1]
  obtain ⟨h1, h2, h3, h4⟩ := pair_counts a b hb ha1 hb1
  simp only [fast_cosegregation_frequency, List.getD_cons_zero,
    List.getD_cons_succ, List.map_cons, List.map_nil]
  rw [h1, h2, h3]
  refine List.ext_getElem (by simp) ?_
  intro j hj1 hj2
  simp at hj1
  interval_cases j <;> (simp; try omega)

theorem sum_map_natCast (l : List Nat) :
    (l.map (fun c => Int.ofNat c)).sum = (l.sum : Int) := by
  induction l with
  | nil => simp
  | cons a t ih => simp [ih]

theorem coseg_freq_eq_general (rows : List (List Nat)) (n : Nat)
    (hrect : ∀ r ∈ rows, r.length = n) (h01 : ∀ r ∈ rows, ∀ x ∈ r, x ≤ 1) :
    cosegregation_frequency rows =
      (general_cosegregation_frequency rows).map (fun c => Int.ofNat c) := by
  by_cases h2 : rows.length = 2
  · obtain ⟨a, b, rfl⟩ := List.length_eq_two.mp h2
    rw [cosegregation_frequency, if_pos h2]
    exact fast_eq_general_pair a b
      (by rw [hrect a (by simp), hrect b (by simp)])
      (h01 a (by simp)) (h01 b (by simp))
  · rw [cosegregation_frequency, if_neg h2]

/-- C1: for K = 2 and any two indicator rows of equal length with values
in the set 0/1, the fast-path inclusion-exclusion formula of
fast_cosegregation_frequency produces exactly the same 2x2 contingency
tensor, cell for cell, as the general per-sample counting algorithm that
increments cell (a i, b i) once per sample i. -/
theorem claim_fast_path_equivalence (a b : List Nat) (hb : b.length = a.length)
    (ha1 : ∀ x ∈ a, x ≤ 1) (hb1 : ∀ x ∈ b, x ≤ 1) :
    fast_cosegregation_frequency [a, b] =
      (general_cosegregation_frequency [a, b]).map (fun c => Int.ofNat c) :=
  fast_eq_general_pair a b hb ha1 hb1

/-- Witness for C1 at the concrete rows a = [1,1,0,0], b = [1,0,1,0]. -/
theorem claim_fast_path_equivalence_witness :
    fast_cosegregation_frequency [[1, 1, 0, 0], [1, 0, 1, 0]] =
      (general_cosegregation_frequency [[1, 1, 0, 0], [1, 0, 1, 0]]).map
        (fun c => Int.ofNat c) :=
  claim_fast_path_equivalence [1, 1, 0, 0] [1, 0, 1, 0] rfl (by decide) (by decide)

/-- C2: for every K >= 2, N >= 0 and K x N table of indicator rows over
0/1, the tensor returned by cosegregation_frequency (fast path at K = 2,
general loop otherwise) has 2^K entries, all non-negative, and their sum
is N; the general counting algorithm satisfies the same sum invariant. -/
theorem claim_tensor_sum_invariant (rows : List (List Nat)) (n : Nat)
    (hK : 2 ≤ rows.length) (hrect : ∀ r ∈ rows, r.length = n)
    (h01 : ∀ r ∈ rows, ∀ x ∈ r, x ≤ 1) :
    (cosegregation_frequency rows).length = 2 ^ rows.length ∧
    (cosegregation_frequency rows).sum = (n : Int) ∧
    (∀ e ∈ cosegregation_frequency rows, 0 ≤ e) ∧
    (general_cosegregation_frequency rows).sum = n := by
  have hns : numSamples rows = n := by
    cases rows with
    | nil => simp at hK
    | cons r rest => exact hrect r (by simp)
  have hgen : (general_cosegregation_frequency rows).sum = n := by
    rw [general_sum rows h01, hns]
  have heq := coseg_freq_eq_general rows n hrect h01
  refine ⟨?_, ?_, ?_, hgen⟩
  · rw [heq, List.length_map, general_length]
  · rw [heq, sum_map_natCast, hgen]
  · intro e he
    rw [heq] at he
    simp only [List.mem_map] at he
    obtain ⟨c, _, rfl⟩ := he
    exact Int.natCast_nonneg c

/-- Witness for C2 at a concrete 3 x 3 table. -/
theorem claim_tensor_sum_invariant_witness :
    (cosegregation_frequency [[1, 1, 0], [1, 0, 1], [0, 1, 1]]).length =
        2 ^ ([[1, 1, 0], [1, 0, 1], [0, 1, 1]] : List (List Nat)).length ∧
    (cosegregation_frequency [[1, 1, 0], [1, 0, 1], [0, 1, 1]]).sum = ((3 : Nat) : Int) ∧
    (∀ e ∈ cosegregation_frequency [[1, 1, 0], [1, 0, 1], [0, 1, 1]], 0 ≤ e) ∧
    (general_cosegregation_frequency [[1, 1, 0], [1, 0, 1], [0, 1, 1]]).sum = 3 :=
  claim_tensor_sum_invariant [[1, 1, 0], [1, 0, 1], [0, 1, 1]] 3
    (by decide) (by decide) (by decide)

theorem overlapsAt_lt (windows : List Window) (chrom : String) (start stop : Int)
    (i : Nat) (h : overlapsAt windows chrom start stop i = true) :
    i < windows.length := by
  by_contra hge
  have hnone : windows[i]? = none := List.getElem?_eq_none (by omega)
  rw [overlapsAt, hnone] at h
  simp at h

theorem mem_coveredWindows (windows : List Window) (chrom : String)
    (start stop : Int) (i : Nat) :
    i ∈ coveredWindows windows chrom start stop ↔
      overlapsAt windows chrom start stop i = true := by
  rw [coveredWindows, List.mem_filter, List.mem_range]
  constructor
  · intro h
    exact h.2
  · intro h
    exact ⟨overlapsAt_lt _ _ _ _ _ h, h⟩

theorem coveredWindows_pairwise (windows : List Window) (chrom : String)
    (start stop : Int) :
    (coveredWindows windows chrom start stop).Pairwise (· < ·) :=
  List.Pairwise.sublist (List.filter_sublist _) (List.pairwise_lt_range _)

theorem headD_mem {l : List Nat} (h : l ≠ []) : l.headD 0 ∈ l := by
  cases l with
  | nil => exact absurd rfl h
  | cons a t => simp

theorem getLastD_default_irrel (b : Nat) (t2 : List Nat) (d : Nat) :
    (b :: t2).getLastD d = (b :: t2).getLastD 0 := by
  cases t2 with
  | nil => rfl
  | cons c t3 => rw [List.getLastD_cons d b (c :: t3), List.getLastD_cons 0 b (c :: t3)]

theorem getLastD_mem {l : List Nat} (h : l ≠ []) : l.getLastD 0 ∈ l := by
  induction l with
  | nil => exact absurd rfl h
  | cons a t ih =>
    cases t with
    | nil => simp [List.getLastD_cons]
    | cons b t2 =>
      rw [List.getLastD_cons, getLastD_default_irrel b t2 a]
      exact List.mem_cons_of_mem a (ih (by simp))

theorem headD_le_of_pairwise {l : List Nat} (hp : l.Pairwise (· < ·)) :
    ∀ k ∈ l, l.headD 0 ≤ k := by
  cases l with
  | nil => intro k hk; simp at hk
  | cons a t =>
    intro k hk
    rcases List.mem_cons.mp hk with rfl | hk2
    · simp
    · have := (List.pairwise_cons.mp hp).1 k hk2
      simp
      omega

theorem le_getLastD_of_pairwise {l : List Nat} (hp : l.Pairwise (· < ·)) :
    ∀ k ∈ l, k ≤ l.getLastD 0 := by
  induction l with
  | nil => intro k hk; simp at hk
  | cons a t ih =>
    intro k hk
    obtain ⟨hat, htp⟩ := List.pairwise_cons.mp hp
    cases t with
    | nil =>
      simp at hk
      simp [hk, List.getLastD_cons]
    | cons b t2 =>
      rw [List.getLastD_cons, getLastD_default_irrel b t2 a]
      rcases List.mem_cons.mp hk with rfl | hk2
      · have hbmem : b ∈ b :: t2 := by simp
        have hab : k < b := hat b hbmem
        have hble : b ≤ (b :: t2).getLastD 0 := ih htp b hbmem
        omega
      · exact ih htp k hk2

/-- C3: for every window list and valid interval with at least one
overlapping window, index_from_interval returns the half-open index
range from the first overlapping row to one past the last overlapping
row, overlap meaning window stop > query start, window start < query
stop and equal chromosome. -/
theorem claim_interval_overlap_correct (windows : List Window) (chrom : String)
    (start stop : Int) (i0 : Nat) (hss : start < stop)
    (hi0 : overlapsAt windows chrom start stop i0 = true) :
    ∃ a b : Nat,
      index_from_interval windows (chrom, start, stop) = .ok (a, b + 1) ∧
      overlapsAt windows chrom start stop a = true ∧
      overlapsAt windows chrom start stop b = true ∧
      (∀ k : Nat, overlapsAt windows chrom start stop k = true → a ≤ k ∧ k ≤ b) := by
  have hmem0 : i0 ∈ coveredWindows windows chrom start stop :=
    (mem_coveredWindows windows chrom start stop i0).mpr hi0
  have hne : coveredWindows windows chrom start stop ≠ [] :=
    List.ne_nil_of_mem hmem0
  have hempty : (coveredWindows windows chrom start stop).isEmpty = false := by
    cases hE : (coveredWindows windows chrom start stop).isEmpty with
    | false => rfl
    | true =>
      rw [List.isEmpty_iff] at hE
      rw [hE] at hmem0
      simp at hmem0
  refine ⟨(coveredWindows windows chrom start stop).headD 0,
    (coveredWindows windows chrom start stop).getLastD 0, ?_, ?_, ?_, ?_⟩
  · simp only [index_from_interval]
    rw [if_neg (fun hcon => hcon hss), hempty]
    simp
  · exact (mem_coveredWindows windows chrom start stop _).mp (headD_mem hne)
  · exact (mem_coveredWindows windows chrom start stop _).mp (getLastD_mem hne)
  · intro k hk
    have hkmem := (mem_coveredWindows windows chrom start stop k).mpr hk
    exact ⟨headD_le_of_pairwise (coveredWindows_pairwise windows chrom start stop) k hkmem,
      le_getLastD_of_pairwise (coveredWindows_pairwise windows chrom start stop) k hkmem⟩

/-- Witness for C3 at the three windows (chr1,0,10), (chr1,10,20),
(chr1,20,30) with the query chr1:5-25, instantiated at overlapping row 0. -/
theorem claim_interval_overlap_correct_witness :
    ∃ a b : Nat,
      index_from_interval
          [⟨"chr1", 0, 10⟩, ⟨"chr1", 10, 20⟩, ⟨"chr1", 20, 30⟩]
          ("chr1", 5, 25) = .ok (a, b + 1) ∧
      overlapsAt [⟨"chr1", 0, 10⟩, ⟨"chr1", 10, 20⟩, ⟨"chr1", 20, 30⟩]
          "chr1" 5 25 a = true ∧
      overlapsAt [⟨"chr1", 0, 10⟩, ⟨"chr1", 10, 20⟩, ⟨"chr1", 20, 30⟩]
          "chr1" 5 25 b = true ∧
      (∀ k : Nat, overlapsAt [⟨"chr1", 0, 10⟩, ⟨"chr1", 10, 20⟩, ⟨"chr1", 20, 30⟩]
          "chr1" 5 25 k = true → a ≤ k ∧ k ≤ b) :=
  claim_interval_overlap_correct
    [⟨"chr1", 0, 10⟩, ⟨"chr1", 10, 20⟩, ⟨"chr1", 20, 30⟩]
    "chr1" 5 25 0 (by decide) (by decide)

/-- C4: for every window list and every interval with start >= stop,
index_from_interval fails with the InvalidInterval error. -/
theorem claim_invalid_interval (windows : List Window) (chrom : String)
    (start stop : Int) (h : stop ≤ start) :
    index_from_interval windows (chrom, start, stop) =
      .error (.invalidInterval start stop) := by
  simp only [index_from_interval]
  rw [if_pos (by omega)]

/-- Witness for C4 at start = 10, stop = 5. -/
theorem claim_invalid_interval_witness :
    index_from_interval [⟨"chr1", 0, 10⟩] ("chr1", 10, 5) =
      .error (.invalidInterval 10 5) :=
  claim_invalid_interval [⟨"chr1", 0, 10⟩] "chr1" 10 5 (by omega)

/-- C5: for every window list and valid interval whose chromosome appears
in no window row, index_from_interval fails with the InvalidChromosome
error carrying the offending chromosome name. -/
theorem claim_invalid_chromosome (windows : List Window) (chrom : String)
    (start stop : Int) (hss : start < stop)
    (habs : ∀ w ∈ windows, w.chrom ≠ chrom) :
    index_from_interval windows (chrom, start, stop) =
      .error (.invalidChrom chrom) := by
  have hover : ∀ i : Nat, overlapsAt windows chrom start stop i = false := by
    intro i
    rw [overlapsAt]
    cases hg : windows[i]? with
    | none => rfl
    | some w =>
      have hw : w ∈ windows := List.getElem?_mem hg
      have := habs w hw
      simp [window_in_region, this]
  have hcov : coveredWindows windows chrom start stop = [] := by
    rw [coveredWindows, List.filter_eq_nil_iff]
    intro i _
    simp [hover i]
  have hany : windows.any (fun w => w.chrom == chrom) = false := by
    rw [List.any_eq_false]
    intro w hw
    simp [habs w hw]
  simp only [index_from_interval]
  rw [if_neg (fun hcon => hcon hss), hcov, hany]
  simp

/-- Witness for C5: querying chromosome chrX against windows that only
carry chr1. -/
theorem claim_invalid_chromosome_witness :
    index_from_interval [⟨"chr1", 0, 10⟩, ⟨"chr1", 10, 20⟩] ("chrX", 0, 5) =
      .error (.invalidChrom "chrX") :=
  claim_invalid_chromosome [⟨"chr1", 0, 10⟩, ⟨"chr1", 10, 20⟩] "chrX" 0 5
    (by omega) (by decide)

/-- Counterexample for C6: with the single window (chr1,0,10) and the
valid query chr1:100-200 the chromosome is present but no window
overlaps, and the code reaches covered_windows[0] on an empty array: the
result is the plain IndexError, not a distinct EmptyRegionResult error. -/
theorem claim_empty_region_counterexample :
    index_from_interval [⟨"chr1", 0, 10⟩] ("chr1", 100, 200) =
      .error .indexError := rfl

/-- C6 as amended: when the interval is valid, the chromosome occurs in
some window row, and no window overlaps, index_from_interval fails with
the uncaught IndexError produced by indexing the empty covered-window
array, not with a dedicated empty-region error. -/
theorem claim_empty_region_index_error (windows : List Window) (chrom : String)
    (start stop : Int) (hss : start < stop)
    (hpresent : ∃ w ∈ windows, w.chrom = chrom)
    (hnone : ∀ i : Nat, overlapsAt windows chrom start stop i = false) :
    index_from_interval windows (chrom, start, stop) = .error .indexError := by
  have hcov : coveredWindows windows chrom start stop = [] := by
    rw [coveredWindows, List.filter_eq_nil_iff]
    intro i _
    simp [hnone i]
  have hany : windows.any (fun w => w.chrom == chrom) = true := by
    rw [List.any_eq_true]
    obtain ⟨w, hw, hc⟩ := hpresent
    exact ⟨w, hw, by simp [hc]⟩
  simp only [index_from_interval]
  rw [if_neg (fun hcon => hcon hss), hcov, hany]
  simp

/-- Witness for the amended C6 at the single window (chr1,0,10) with the
query chr1:50-60. -/
theorem claim_empty_region_index_error_witness :
    index_from_interval [⟨"chr1", 0, 10⟩] ("chr1", 50, 60) =
      .error .indexError :=
  claim_empty_region_index_error [⟨"chr1", 0, 10⟩] "chr1" 50 60 (by omega)
    ⟨⟨"chr1", 0, 10⟩, by simp, rfl⟩
    (by
      intro i
      cases i with
      | zero => rfl
      | succ n => rfl)

theorem max?_range' : ∀ (n s : Nat), (List.range' s (n + 1)).max? = some (s + n) := by
  intro n
  induction n with
  | zero => intro s; rfl
  | succ m ih =>
    intro s
    rw [List.range'_succ, List.max?_cons, ih (s + 1)]
    simp only [Option.elim]
    congr 1
    omega

theorem buildIndexes_ok (regions : List (List (List Nat))) (start : Nat)
    (hne : ∀ r ∈ regions, r ≠ []) :
    buildIndexes regions start = .ok (specRanges start regions) := by
  induction regions generalizing start with
  | nil => rfl
  | cons r rest ih =>
    have hr : r ≠ [] := hne r (by simp)
    have hlen : r.length = (r.length - 1) + 1 := by
      cases r with
      | nil => exact absurd rfl hr
      | cons x t => simp
    have hmax : (List.range' start r.length).max? = some (start + (r.length - 1)) := by
      rw [hlen]
      exact max?_range' (r.length - 1) start
    have hbi : buildIndexes (r :: rest) start =
        match (List.range' start r.length).max? with
        | none => .error .valueError
        | some m =>
          (buildIndexes rest (m + 1)).map
            (fun ls => List.range' start r.length :: ls) := rfl
    rw [hbi, hmax]
    show (buildIndexes rest (start + (r.length - 1) + 1)).map
        (fun ls => List.range' start r.length :: ls) = .ok (specRanges start (r :: rest))
    rw [ih _ (fun t ht => hne t (by simp [ht]))]
    have harith : start + (r.length - 1) + 1 = start + r.length := by omega
    rw [harith]
    rfl

theorem buildIndexes_err (regions : List (List (List Nat))) (start : Nat)
    (hemp : ∃ r ∈ regions, r = []) :
    buildIndexes regions start = .error .valueError := by
  induction regions generalizing start with
  | nil => simp at hemp
  | cons r rest ih =>
    by_cases hr : r = []
    · subst hr
      rfl
    · obtain ⟨t, ht, htv⟩ := hemp
      rcases List.mem_cons.mp ht with rfl | htr
      · exact absurd htv hr
      · have hlen : r.length = (r.length - 1) + 1 := by
          cases r with
          | nil => exact absurd rfl hr
          | cons x t2 => simp
        have hmax : (List.range' start r.length).max? =
            some (start + (r.length - 1)) := by
          rw [hlen]
          exact max?_range' (r.length - 1) start
        have hbi : buildIndexes (r :: rest) start =
            match (List.range' start r.length).max? with
            | none => .error .valueError
            | some m =>
              (buildIndexes rest (m + 1)).map
                (fun ls => List.range' start r.length :: ls) := rfl
        rw [hbi, hmax]
        show (buildIndexes rest (start + (r.length - 1) + 1)).map
            (fun ls => List.range' start r.length :: ls) = .error .valueError
        rw [ih _ ⟨t, htr, htv⟩]
        rfl

theorem sum_map_const (l : List Nat) (c : Nat) :
    (l.map (fun _ => c)).sum = l.length * c := by
  induction l with
  | nil => simp
  | cons a t ih =>
    simp [ih]
    ring

theorem listProd_length : ∀ (ls : List (List Nat)),
    (listProd ls).length = (ls.map List.length).prod := by
  intro ls
  induction ls with
  | nil => rfl
  | cons xs rest ih =>
    simp only [listProd, List.length_flatMap]
    rw [show (List.length ∘ fun x => List.map (fun c => x :: c) (listProd rest)) =
        (fun _ : Nat => (listProd rest).length) from by funext x; simp]
    rw [sum_map_const, ih]
    simp

theorem listProd_mem_length : ∀ (ls : List (List Nat)) (xs : List Nat),
    xs ∈ listProd ls → xs.length = ls.length := by
  intro ls
  induction ls with
  | nil =>
    intro xs hxs
    simp [listProd] at hxs
    simp [hxs]
  | cons l rest ih =>
    intro xs hxs
    simp only [listProd, List.mem_flatMap, List.mem_map] at hxs
    obtain ⟨x, hx, c, hc, rfl⟩ := hxs
    simp [ih c hc]

theorem listProd_mem_iff : ∀ (ls : List (List Nat)) (xs : List Nat),
    xs ∈ listProd ls ↔ List.Forall₂ (fun x l => x ∈ l) xs ls := by
  intro ls
  induction ls with
  | nil =>
    intro xs
    simp only [listProd, List.mem_singleton]
    constructor
    · rintro rfl
      exact List.Forall₂.nil
    · intro h
      cases h
      rfl
  | cons l rest ih =>
    intro xs
    simp only [listProd, List.mem_flatMap, List.mem_map]
    constructor
    · rintro ⟨x, hx, c, hc, rfl⟩
      exact List.Forall₂.cons hx ((ih c).mp hc)
    · intro h
      cases h with
      | cons hx hrest => exact ⟨_, hx, _, (ih _).mpr hrest, rfl⟩

theorem specRanges_map_length : ∀ (regions : List (List (List Nat))) (start : Nat),
    (specRanges start regions).map List.length = regions.map List.length := by
  intro regions
  induction regions with
  | nil => intro s; rfl
  | cons r rest ih =>
    intro s
    simp [specRanges, ih]

theorem specRanges_length (regions : List (List (List Nat))) (start : Nat) :
    (specRanges start regions).length = regions.length := by
  have h := congrArg List.length (specRanges_map_length regions start)
  simpa using h

theorem gic_ok (regions : List (List (List Nat))) (h2 : 2 ≤ regions.length)
    (hne : ∀ r ∈ regions, r ≠ []) :
    get_index_combinations regions = .ok (listProd (specRanges 0 regions)) := by
  rw [get_index_combinations, if_pos (by omega), buildIndexes_ok regions 0 hne]
  rfl

theorem gic_err (regions : List (List (List Nat))) (h2 : 2 ≤ regions.length)
    (hemp : ∃ r ∈ regions, r = []) :
    get_index_combinations regions = .error .valueError := by
  rw [get_index_combinations, if_pos (by omega), buildIndexes_err regions 0 hemp]
  rfl

theorem coseg_freq_length (rows : List (List Nat)) :
    (cosegregation_frequency rows).length = 2 ^ rows.length := by
  rw [cosegregation_frequency]
  by_cases h2 : rows.length = 2
  · rw [if_pos h2, h2]
    rfl
  · rw [if_neg h2, List.length_map, general_length]

/-- C7: for K >= 2 non-empty regions, get_index_combinations yields the
Cartesian product, in lexicographic order with the first region slowest,
of the per-region index ranges offset by the cumulative lengths of the
preceding regions; a single region is rejected by the assertion; and
membership in the product is exactly componentwise membership in the
ranges. -/
theorem claim_combination_enumerator :
    (∀ regions : List (List (List Nat)), 2 ≤ regions.length →
        (∀ r ∈ regions, r ≠ []) →
        get_index_combinations regions = .ok (listProd (specRanges 0 regions))) ∧
    (∀ r : List (List Nat), get_index_combinations [r] = .error .assertionError) ∧
    (∀ (ls : List (List Nat)) (xs : List Nat),
        xs ∈ listProd ls ↔ List.Forall₂ (fun x l => x ∈ l) xs ls) :=
  ⟨fun regions h2 hne => gic_ok regions h2 hne,
   fun _ => rfl,
   listProd_mem_iff⟩

/-- Witness for C7 at two regions of lengths 2 and 1: the enumerator
returns the product of the offset ranges [0,1] and [2]. -/
theorem claim_combination_enumerator_witness :
    get_index_combinations [[[1], [0]], [[1]]] =
      .ok (listProd (specRanges 0 [[[1], [0]], [[1]]])) :=
  claim_combination_enumerator.1 [[[1], [0]], [[1]]] (by decide) (by decide)

/-- C8: computing the frequency tensor of a single region gives exactly
the tensor of the pair (region, region): the lone region is duplicated
into a K = 2 self-comparison. -/
theorem claim_self_comparison (region : List (List Nat)) :
    get_cosegregation_freqs [region] = get_cosegregation_freqs [region, region] := rfl

/-- C10: with K >= 2 regions of which at least one is empty, the
combination enumerator fails with the ValueError from max() of an empty
range instead of returning the empty Cartesian product, and hence the
frequency-tensor computation fails as well: every input region must be
non-empty. -/
theorem claim_empty_region_precondition (regions : List (List (List Nat)))
    (hK : 2 ≤ regions.length) (hemp : ∃ r ∈ regions, r = []) :
    get_index_combinations regions = .error .valueError ∧
    get_cosegregation_freqs regions = .error .valueError := by
  have h1 : get_index_combinations regions = .error .valueError :=
    gic_err regions hK hemp
  have hlen1 : ¬ regions.length = 1 := by omega
  refine ⟨h1, ?_⟩
  rw [get_cosegregation_freqs]
  simp only [if_neg hlen1]
  rw [h1]

/-- Witness for C10 at the region pair (empty, one window). -/
theorem claim_empty_region_precondition_witness :
    get_index_combinations [[], [[1]]] = .error .valueError ∧
    get_cosegregation_freqs [[], [[1]]] = .error .valueError :=
  claim_empty_region_precondition [[], [[1]]] (by decide) ⟨[], by simp, rfl⟩

/-- C9: for K >= 2 non-empty regions with lengths n1..nK the frequency
tensor has shape (n1, ..., nK, 2, ..., 2) with K trailing binary axes,
holds one contingency tensor of 2^K cells per combination in enumeration
order, and map_freqs with any reduction function keeps exactly the
region-length axes (n1, ..., nK) with one scalar per combination. -/
theorem claim_shape_correct (regions : List (List (List Nat)))
    (func : List Int → Int) (hK : 2 ≤ regions.length)
    (hne : ∀ r ∈ regions, r ≠ []) :
    ∃ ft : FreqTensor,
      get_cosegregation_freqs regions = .ok ft ∧
      ft.shape = regions.map List.length ++ List.replicate regions.length 2 ∧
      ft.tensors.length = (regions.map List.length).prod ∧
      (∀ t ∈ ft.tensors, t.length = 2 ^ regions.length) ∧
      (map_freqs func ft).1 = regions.map List.length ∧
      (map_freqs func ft).2.length = (regions.map List.length).prod := by
  have hlen1 : ¬ regions.length = 1 := by omega
  have hfreq : get_cosegregation_freqs regions = .ok
      { shape := regions.map List.length ++ List.replicate regions.length 2,
        tensors := (listProd (specRanges 0 regions)).map (fun ix =>
          cosegregation_frequency (ix.map (fun i => (regions.flatten).getD i []))) } := by
    rw [get_cosegregation_freqs]
    simp only [if_neg hlen1]
    rw [gic_ok regions hK hne]
  refine ⟨_, hfreq, rfl, ?_, ?_, ?_, ?_⟩
  · simp [listProd_length, specRanges_map_length]
  · intro t ht
    simp only [List.mem_map] at ht
    obtain ⟨ix, hix, rfl⟩ := ht
    rw [coseg_freq_length, List.length_map, listProd_mem_length _ ix hix,
      specRanges_length]
  · show (regions.map List.length ++ List.replicate regions.length 2).take
        ((regions.map List.length ++ List.replicate regions.length 2).length / 2) =
      regions.map List.length
    have hhalf : (regions.map List.length ++ List.replicate regions.length 2).length / 2 =
        regions.length := by
      simp
      omega
    rw [hhalf]
    have hml : (regions.map List.length).length = regions.length := by simp
    rw [← hml, List.take_left]
  · simp [map_freqs, listProd_length, specRanges_map_length]

/-- Witness for C9 at regions of lengths 3 and 4 with the constant-zero
reduction function: the frequency tensor has shape (3,4,2,2) and the
reduced interaction matrix keeps shape (3,4). -/
theorem claim_shape_correct_witness :
    ∃ ft : FreqTensor,
      get_cosegregation_freqs exRegions34 = .ok ft ∧
      ft.shape = exRegions34.map List.length ++
        List.replicate exRegions34.length 2 ∧
      ft.tensors.length = (exRegions34.map List.length).prod ∧
      (∀ t ∈ ft.tensors, t.length = 2 ^ exRegions34.length) ∧
      (map_freqs (fun _ => 0) ft).1 = exRegions34.map List.length ∧
      (map_freqs (fun _ => 0) ft).2.length = (exRegions34.map List.length).prod :=
  claim_shape_correct exRegions34 (fun _ => 0) (by decide) (by decide)

end GamTools
